import Mathlib

/-!
Shallow embedding of the distributed assembly / repartitioning pipeline of the
amgcl MPI examples (`examples/mpi/mpi_amg.cpp` and
`tutorial/2.Serena/serena_mpi_mixed.cpp`), with proofs of the specified
properties of the row-range assignment, the synthetic Poisson assembly, the
partition step's control flow, the block-size dispatch, the right-hand-side
defaulting, and the diagonal-scaling step.

Machine integers (`ptrdiff_t`, `size_t`) are modelled as `Nat` (all the
quantities involved are non-negative and no overflow is exercised by the
claims); matrix values, which the code computes exactly from integers
(`h2i = (n-1)*(n-1)`), are modelled as `Int`; file-borne right-hand-side
values are modelled as `Rat`.
-/

namespace Amgcl

/-! ## Row-range assignment

The chunk computation appears verbatim at four places in the sources
(`assemble_poisson3d`, `read_matrix_market`, `read_binary` in mpi_amg.cpp and
`main` in serena_mpi_mixed.cpp):

```
chunk = (N + P - 1) / P;
if (chunk % align != 0) chunk += align - chunk % align;
row_beg = min(N, chunk * rank);
row_end = min(N, row_beg + chunk);
```
-/

/-- The aligned chunk size: ceiling division rounded up to the alignment,
exactly as computed by the code. -/
def chunkAligned (N P align : Nat) : Nat :=
  let c := (N + P - 1) / P
  if c % align ≠ 0 then c + (align - c % align) else c

/-- `row_beg = min(N, chunk * rank)`. -/
def row_beg (N P align rank : Nat) : Nat :=
  min N (chunkAligned N P align * rank)

/-- `row_end = min(N, row_beg + chunk)`. -/
def row_end (N P align rank : Nat) : Nat :=
  min N (row_beg N P align rank + chunkAligned N P align)

/-- The chunk size as the specification words it: `chunk = ceil(N / P)`,
"rounded up to the next multiple of `align` if it is not already a multiple".
Written independently of the code's `(N + P - 1) / P` idiom. -/
def specChunk (N P align : Nat) : Nat :=
  let c := N / P + (if N % P = 0 then 0 else 1)
  if c % align = 0 then c else align * (c / align + 1)

lemma ceil_div_eq (N P : Nat) (hP : 0 < P) :
    (N + P - 1) / P = N / P + (if N % P = 0 then 0 else 1) := by
  have h := Nat.div_add_mod N P
  have hr : N % P < P := Nat.mod_lt _ hP
  rcases Nat.eq_zero_or_pos (N % P) with h0 | h0
  · have he : N + P - 1 = P * (N / P) + (P - 1) := by omega
    rw [he, Nat.mul_add_div hP, Nat.div_eq_of_lt (by omega : P - 1 < P)]
    simp [h0]
  · have hm : P * (N / P + 1) = P * (N / P) + P := by ring
    have he : N + P - 1 = P * (N / P + 1) + (N % P - 1) := by omega
    rw [he, Nat.mul_add_div hP, Nat.div_eq_of_lt (by omega : N % P - 1 < P)]
    have : ¬ N % P = 0 := by omega
    simp [this]

lemma round_up_eq (c align : Nat) (ha : 0 < align) :
    (if c % align ≠ 0 then c + (align - c % align) else c) =
      (if c % align = 0 then c else align * (c / align + 1)) := by
  have h := Nat.div_add_mod c align
  have hr : c % align < align := Nat.mod_lt _ ha
  rcases Nat.eq_zero_or_pos (c % align) with h0 | h0
  · simp [h0]
  · have hne : ¬ c % align = 0 := by omega
    simp only [hne, if_false, ne_eq, not_false_eq_true, if_true]
    have : align * (c / align + 1) = align * (c / align) + align := by ring
    omega

lemma chunkAligned_eq_specChunk (N P align : Nat) (hP : 0 < P) (ha : 0 < align) :
    chunkAligned N P align = specChunk N P align := by
  simp only [chunkAligned, specChunk]
  rw [ceil_div_eq N P hP]
  exact round_up_eq _ align ha

/-- The code's chunk is at least the plain ceiling division. -/
lemma ceil_le_chunkAligned (N P align : Nat) :
    (N + P - 1) / P ≤ chunkAligned N P align := by
  simp only [chunkAligned]
  split <;> omega

/-- `P` chunks cover all `N` rows. -/
lemma le_chunkAligned_mul (N P align : Nat) (hP : 0 < P) :
    N ≤ chunkAligned N P align * P := by
  have h1 : N ≤ ((N + P - 1) / P) * P := by
    have h := Nat.div_add_mod (N + P - 1) P
    have hr : (N + P - 1) % P < P := Nat.mod_lt _ hP
    have : P * ((N + P - 1) / P) = ((N + P - 1) / P) * P := by ring
    omega
  exact le_trans h1 (Nat.mul_le_mul_right P (ceil_le_chunkAligned N P align))

lemma chunkAligned_pos (N P align : Nat) (hN : 0 < N) (hP : 0 < P) :
    0 < chunkAligned N P align := by
  have h1 : 0 < (N + P - 1) / P := Nat.div_pos (by omega) hP
  exact lt_of_lt_of_le h1 (ceil_le_chunkAligned N P align)

/-- The alignment divides the code's chunk size. -/
lemma align_dvd_chunkAligned (N P align : Nat) (ha : 0 < align) :
    align ∣ chunkAligned N P align := by
  simp only [chunkAligned]
  have h := Nat.div_add_mod ((N + P - 1) / P) align
  split
  · refine ⟨(N + P - 1) / P / align + 1, ?_⟩
    have : align * ((N + P - 1) / P / align + 1)
        = align * ((N + P - 1) / P / align) + align := by ring
    have hr : (N + P - 1) / P % align < align := Nat.mod_lt _ ha
    omega
  · refine ⟨(N + P - 1) / P / align, ?_⟩
    omega

/-- C1: the assigned row range is `chunk = ceil(N/P)` rounded up to the next
multiple of `align`, `row_beg = min(N, chunk * rank)`,
`row_end = min(N, row_beg + chunk)`; in particular for `N = 100`, `P = 3`,
`align = 4` the ranges of ranks 0, 1, 2 are `[0,36)`, `[36,72)`, `[72,100)`. -/
theorem C1_range_assignment (N P rank align : Nat) (hP : 1 ≤ P) (ha : 1 ≤ align) :
    (row_beg N P align rank = min N (specChunk N P align * rank) ∧
     row_end N P align rank = min N (row_beg N P align rank + specChunk N P align)) ∧
    (chunkAligned 100 3 4 = 36 ∧
     row_beg 100 3 4 0 = 0 ∧ row_end 100 3 4 0 = 36 ∧
     row_beg 100 3 4 1 = 36 ∧ row_end 100 3 4 1 = 72 ∧
     row_beg 100 3 4 2 = 72 ∧ row_end 100 3 4 2 = 100) := by
  refine ⟨?_, by decide⟩
  rw [row_beg, row_end, row_beg, chunkAligned_eq_specChunk N P align hP ha]
  exact ⟨rfl, rfl⟩

/-- Witness for C1 at `N = 100`, `P = 3`, `align = 4`, rank 2. -/
theorem C1_range_assignment_witness :
    row_beg 100 3 4 2 = min 100 (specChunk 100 3 4 * 2) ∧
    row_end 100 3 4 2 = 100 :=
  ⟨(C1_range_assignment 100 3 2 4 (by decide) (by decide)).1.1,
   (C1_range_assignment 100 3 2 4 (by decide) (by decide)).2.2.2.2.2.2.2⟩

/-- C2: for `P ≥ 1`, `align ≥ 1`, the ranges of ranks `0..P-1` partition
`[0, N)` exactly: rank 0 starts at 0, consecutive ranges are contiguous,
rank `P-1` ends at `N`; every range with `row_end < N` has length a multiple
of `align`; an empty range only happens with `row_beg = row_end = N` (or
`N = 0`), which yields an empty local chunk rather than an error. -/
theorem C2_ranges_partition (N P align : Nat) (hP : 1 ≤ P) (ha : 1 ≤ align) :
    row_beg N P align 0 = 0 ∧
    row_end N P align (P - 1) = N ∧
    (∀ r : Nat, row_end N P align r = row_beg N P align (r + 1)) ∧
    (∀ r : Nat, row_beg N P align r ≤ row_end N P align r) ∧
    (∀ r : Nat, row_end N P align r < N →
      align ∣ (row_end N P align r - row_beg N P align r)) ∧
    (∀ r : Nat, row_beg N P align r = row_end N P align r → row_beg N P align r = N) := by
  set c := chunkAligned N P align with hc
  have hcov : N ≤ c * P := le_chunkAligned_mul N P align hP
  have hdvd : align ∣ c := align_dvd_chunkAligned N P align ha
  refine ⟨?_, ?_, ?_, ?_, ?_, ?_⟩
  · simp [row_beg]
  · -- rank P-1 reaches N
    simp only [row_end, row_beg, ← hc]
    have h1 : c * (P - 1) + c = c * P := by
      calc c * (P - 1) + c = c * (P - 1 + 1) := by ring
      _ = c * P := by rw [Nat.sub_add_cancel hP]
    omega
  · intro r
    simp only [row_end, row_beg, ← hc]
    have hmul : c * (r + 1) = c * r + c := by ring
    omega
  · intro r
    simp only [row_end, row_beg, ← hc]
    omega
  · intro r hlt
    simp only [row_end, row_beg, ← hc] at hlt ⊢
    rcases le_or_lt (c * r) N with h | h
    · rw [min_eq_right h] at hlt ⊢
      rcases le_or_lt (c * r + c) N with h2 | h2
      · rw [min_eq_right h2]
        have he : c * r + c - c * r = c := by omega
        rw [he]
        exact hdvd
      · omega
    · omega
  · intro r heq
    by_contra hne
    have hb : row_beg N P align r ≤ N := min_le_left _ _
    have hlt : row_beg N P align r < N := lt_of_le_of_ne hb hne
    have hcpos : 0 < c := chunkAligned_pos N P align (by omega) hP
    have hmono : row_beg N P align r < row_end N P align r := by
      rw [row_end, ← hc]
      exact lt_min hlt (by omega)
    omega

/-- Witness for C2 at `N = 100`, `P = 3`, `align = 4`. -/
theorem C2_ranges_partition_witness :
    row_end 100 3 4 1 = row_beg 100 3 4 2 ∧ row_end 100 3 4 (3 - 1) = 100 :=
  ⟨(C2_ranges_partition 100 3 4 (by decide) (by decide)).2.2.1 1,
   (C2_ranges_partition 100 3 4 (by decide) (by decide)).2.1⟩

/-! ## The partition step (mpi_amg.cpp, `partition`, lines 191-233)

The distributed-matrix algebra (`transpose`, `product`, `spmv`,
`move_to_backend`) and the partitioning wrapper live in the amgcl library
headers, outside this repository's sources; the spec declares them external
collaborators (section 6).  The control flow of `partition` itself is embedded
symbolically: matrices are expressions over the opaque operations, and the
step records the sequence of operations it performs in program order. -/

/-- Runtime partition strategies named in the sources
(`amgcl::runtime::mpi::partition::type`). -/
inductive PartitionType
  | merge
  | ptscotch
  | parmetis
deriving DecidableEq

/-- Symbolic distributed-matrix expressions occurring in `partition`. -/
inductive MatExpr
  | strip                        -- std::make_shared<DMatrix>(comm, Astrip)
  | restriction                  -- auto I = part(*A, block_size)
  | transposeOf (m : MatExpr)    -- transpose(*I)
  | productOf (a b : MatExpr)    -- product(*X, *Y)
deriving DecidableEq

/-- Symbolic right-hand-side values occurring in `partition`. -/
inductive RhsExpr
  | input                               -- the rhs vector passed in
  | spmvJ (m : MatExpr) (v : RhsExpr)   -- spmv(1, *J, rhs, 0, new_rhs); rhs.swap(new_rhs)
deriving DecidableEq

/-- Events recorded while the partition step runs, in program order. -/
inductive PEvent
  | makeDistributed               -- auto A = std::make_shared<DMatrix>(comm, Astrip)
  | computeRestriction            -- auto I = part(*A, block_size)
  | transposeRestriction          -- auto J = transpose(*I)
  | galerkinProduct               -- A = product(*J, *product(*A, *I))
  | allocRhs (len : Nat)          -- new_rhs(J->loc_rows())
  | moveToBackend (m : MatExpr)   -- J->move_to_backend(bprm)
  | spmv (m : MatExpr)            -- amgcl::backend::spmv(1, *J, rhs, 0, new_rhs)
  | swapRhs                       -- rhs.swap(new_rhs)
deriving DecidableEq

/-- Result of the partition step: the operator returned to the caller, the
final rhs, the length of the rhs vector, and the trace of events in execution
order. -/
structure PartitionOut where
  A : MatExpr
  rhs : RhsExpr
  rhsLen : Nat
  trace : List PEvent
deriving DecidableEq

/-- Shallow embedding of `partition` (mpi_amg.cpp lines 191-233).  `locRows`
is an oracle for `->loc_rows()` of a composable matrix and `rhsLen0` is the
length of the incoming rhs vector. -/
def partitionStep (size : Nat) (ptype : PartitionType) (locRows : MatExpr → Nat)
    (rhsLen0 : Nat) : PartitionOut :=
  let A := MatExpr.strip
  if size = 1 ∨ ptype = PartitionType.merge then
    { A := A, rhs := RhsExpr.input, rhsLen := rhsLen0,
      trace := [PEvent.makeDistributed] }
  else
    let I := MatExpr.restriction
    let J := MatExpr.transposeOf I
    { A := MatExpr.productOf J (MatExpr.productOf A I),
      rhs := RhsExpr.spmvJ J RhsExpr.input,
      rhsLen := locRows J,
      trace := [PEvent.makeDistributed, PEvent.computeRestriction,
                PEvent.transposeRestriction, PEvent.galerkinProduct,
                PEvent.allocRhs (locRows J), PEvent.moveToBackend J,
                PEvent.spmv J, PEvent.swapRhs] }

/-- C3: with more than one process and a strategy other than merge, the
partition step returns the Galerkin triple product `J × (A × I)` with
`J = transpose(I)`, replaces the rhs with `J × rhs` allocated with length
`J->loc_rows()`, moves `J` to the backend strictly before the sparse
matrix-vector product executes, and never moves the returned operator to the
backend. -/
theorem C3_repartition_structure (size : Nat) (ptype : PartitionType)
    (locRows : MatExpr → Nat) (rhsLen0 : Nat)
    (hsize : 2 ≤ size) (hp : ptype ≠ PartitionType.merge) :
    (partitionStep size ptype locRows rhsLen0).A =
      MatExpr.productOf (MatExpr.transposeOf MatExpr.restriction)
        (MatExpr.productOf MatExpr.strip MatExpr.restriction) ∧
    (partitionStep size ptype locRows rhsLen0).rhs =
      RhsExpr.spmvJ (MatExpr.transposeOf MatExpr.restriction) RhsExpr.input ∧
    (partitionStep size ptype locRows rhsLen0).rhsLen =
      locRows (MatExpr.transposeOf MatExpr.restriction) ∧
    (∃ i j : Nat, i < j ∧
      (partitionStep size ptype locRows rhsLen0).trace.get? i =
        some (PEvent.moveToBackend (MatExpr.transposeOf MatExpr.restriction)) ∧
      (partitionStep size ptype locRows rhsLen0).trace.get? j =
        some (PEvent.spmv (MatExpr.transposeOf MatExpr.restriction))) ∧
    PEvent.moveToBackend (partitionStep size ptype locRows rhsLen0).A ∉
      (partitionStep size ptype locRows rhsLen0).trace := by
  have h1 : ¬ (size = 1 ∨ ptype = PartitionType.merge) := by
    rintro (h | h)
    · omega
    · exact hp h
  have hout : partitionStep size ptype locRows rhsLen0 =
      { A := MatExpr.productOf (MatExpr.transposeOf MatExpr.restriction)
              (MatExpr.productOf MatExpr.strip MatExpr.restriction),
        rhs := RhsExpr.spmvJ (MatExpr.transposeOf MatExpr.restriction) RhsExpr.input,
        rhsLen := locRows (MatExpr.transposeOf MatExpr.restriction),
        trace := [PEvent.makeDistributed, PEvent.computeRestriction,
                  PEvent.transposeRestriction, PEvent.galerkinProduct,
                  PEvent.allocRhs (locRows (MatExpr.transposeOf MatExpr.restriction)),
                  PEvent.moveToBackend (MatExpr.transposeOf MatExpr.restriction),
                  PEvent.spmv (MatExpr.transposeOf MatExpr.restriction),
                  PEvent.swapRhs] } := by
    simp [partitionStep, h1]
  rw [hout]
  refine ⟨rfl, rfl, rfl, ⟨5, 6, by omega, rfl, rfl⟩, ?_⟩
  simp

/-- Witness for C3: two processes, ptscotch strategy. -/
theorem C3_repartition_structure_witness :
    (partitionStep 2 PartitionType.ptscotch (fun _ => 5) 7).A =
      MatExpr.productOf (MatExpr.transposeOf MatExpr.restriction)
        (MatExpr.productOf MatExpr.strip MatExpr.restriction) ∧
    (partitionStep 2 PartitionType.ptscotch (fun _ => 5) 7).rhsLen = 5 :=
  ⟨(C3_repartition_structure 2 PartitionType.ptscotch (fun _ => 5) 7
      (by omega) (by simp)).1,
   (C3_repartition_structure 2 PartitionType.ptscotch (fun _ => 5) 7
      (by omega) (by simp)).2.2.1⟩

/-- C4: with one process, or with the merge strategy, the partition step
returns the distributed matrix built from the input strip unchanged, computes
no restriction operator, and leaves the right-hand side unchanged. -/
theorem C4_partition_noop (size : Nat) (ptype : PartitionType)
    (locRows : MatExpr → Nat) (rhsLen0 : Nat)
    (h : size = 1 ∨ ptype = PartitionType.merge) :
    (partitionStep size ptype locRows rhsLen0).A = MatExpr.strip ∧
    (partitionStep size ptype locRows rhsLen0).rhs = RhsExpr.input ∧
    (partitionStep size ptype locRows rhsLen0).rhsLen = rhsLen0 ∧
    PEvent.computeRestriction ∉ (partitionStep size ptype locRows rhsLen0).trace ∧
    (partitionStep size ptype locRows rhsLen0).trace = [PEvent.makeDistributed] := by
  simp [partitionStep, h]

/-- Witness for C4: one process with a non-merge strategy. -/
theorem C4_partition_noop_witness :
    (partitionStep 1 PartitionType.parmetis (fun _ => 5) 7).A = MatExpr.strip ∧
    (partitionStep 1 PartitionType.parmetis (fun _ => 5) 7).rhs = RhsExpr.input :=
  ⟨(C4_partition_noop 1 PartitionType.parmetis (fun _ => 5) 7 (Or.inl rfl)).1,
   (C4_partition_noop 1 PartitionType.parmetis (fun _ => 5) 7 (Or.inl rfl)).2.1⟩

/-! ## Block-size dispatch (mpi_amg.cpp `main`, switch at lines 546-565) -/

/-- One invoked solver specialization. -/
inductive SolveCall
  | solve_scalar
  | solve_block (b : Nat)
deriving DecidableEq

/-- The compiled-in block-solver sizes: `AMGCL_BLOCK_SIZES (3)(4)`. -/
def compiledBlockSizes : List Nat := [3, 4]

/-- Result of the dispatch on one rank: the solver calls performed and the
lines this rank prints. -/
structure DispatchOut where
  calls : List SolveCall
  printed : List String
deriving DecidableEq

/-- Shallow embedding of the `switch(block_size)` in `main`: the cases
generated from `AMGCL_BLOCK_SIZES` call `solve_block<B>`, `case 1` calls
`solve_scalar`, and the default branch prints on rank 0 only. -/
def dispatchBlockSize (block_size rank : Nat) : DispatchOut :=
  if block_size ∈ compiledBlockSizes then
    { calls := [SolveCall.solve_block block_size], printed := [] }
  else if block_size = 1 then
    { calls := [SolveCall.solve_scalar], printed := [] }
  else
    { calls := [],
      printed := if rank = 0 then ["Unsupported block size!"] else [] }

/-- C7: a block size outside the compiled-in set {1} ∪ AMGCL_BLOCK_SIZES
produces the "unsupported block size" report on rank 0 only, and no solver
specialization is invoked on any rank. -/
theorem C7_unsupported_block_size (block_size rank : Nat)
    (h1 : block_size ≠ 1) (h2 : block_size ∉ compiledBlockSizes) :
    (dispatchBlockSize block_size rank).calls = [] ∧
    (dispatchBlockSize block_size 0).printed = ["Unsupported block size!"] ∧
    (rank ≠ 0 → (dispatchBlockSize block_size rank).printed = []) := by
  simp [dispatchBlockSize, h1, h2]

/-- Witness for C7 at block size 5 (with {1, 3, 4} compiled in), rank 1. -/
theorem C7_unsupported_block_size_witness :
    (dispatchBlockSize 5 1).calls = [] ∧
    (dispatchBlockSize 5 0).printed = ["Unsupported block size!"] :=
  ⟨(C7_unsupported_block_size 5 1 (by decide) (by decide)).1,
   (C7_unsupported_block_size 5 1 (by decide) (by decide)).2.1⟩

/-! ## Synthetic 3D Poisson assembly (mpi_amg.cpp `assemble_poisson3d`)

The code computes `h2i = (n - 1) * (n - 1)` from integers and stores only
`6 * h2i` and `-h2i`; these are exact in a double for every grid size the
program can address, so values are modelled as `Int`. -/

/-- `const double h2i = (n - 1) * (n - 1)`. -/
def h2i (n : Nat) : Int := ((n : Int) - 1) * ((n : Int) - 1)

/-- The (column, value) pairs pushed by the loop body of `assemble_poisson3d`
for global row `idx`, in push order (lines 77-115); the coordinates are
`k = idx / (n*n)`, `j = (idx / n) % n`, `i = idx % n`. -/
def poissonRow (n idx : Nat) : List (Nat × Int) :=
  (if 0 < idx / (n * n) then [(idx - n * n, - h2i n)] else []) ++
  (if 0 < (idx / n) % n then [(idx - n, - h2i n)] else []) ++
  (if 0 < idx % n then [(idx - 1, - h2i n)] else []) ++
  [(idx, 6 * h2i n)] ++
  (if idx % n + 1 < n then [(idx + 1, - h2i n)] else []) ++
  (if (idx / n) % n + 1 < n then [(idx + n, - h2i n)] else []) ++
  (if idx / (n * n) + 1 < n then [(idx + n * n, - h2i n)] else [])

/-- One iteration of the assembly loop: push the row's entries, then push
`col.size()` onto `ptr`. -/
def asmStep (n : Nat) (st : List Nat × List (Nat × Int)) (idx : Nat) :
    List Nat × List (Nat × Int) :=
  (st.1 ++ [(st.2 ++ poissonRow n idx).length], st.2 ++ poissonRow n idx)

/-- The global row indices `[row_beg, row_end)` iterated by the loop. -/
def rowIdxList (N P align rank : Nat) : List Nat :=
  (List.range (row_end N P align rank - row_beg N P align rank)).map
    (fun t => row_beg N P align rank + t)

/-- Output of `assemble_poisson3d`: the returned chunk and the four arrays. -/
structure AsmOut where
  chunk : Nat
  ptr : List Nat
  col : List Nat
  val : List Int
  rhs : List Int
deriving DecidableEq

/-- Shallow embedding of `assemble_poisson3d` (mpi_amg.cpp lines 50-119):
`n` is the grid side (`n3 = n*n*n` global rows), `size`/`rank` the process
group, `block_size` the alignment; the rhs is filled with ones and the CRS
arrays collect the per-row stencil entries. -/
def assemble_poisson3d (n size rank block_size : Nat) : AsmOut :=
  let n3 := n * n * n
  let rb := row_beg n3 size block_size rank
  let re := row_end n3 size block_size rank
  let st := (rowIdxList n3 size block_size rank).foldl (asmStep n) ([0], [])
  { chunk := re - rb
    ptr := st.1
    col := st.2.map Prod.fst
    val := st.2.map Prod.snd
    rhs := List.replicate (re - rb) 1 }

/-- The `ptr` values pushed while assembling the rows of `L`, starting with
`base` entries already emitted. -/
def ptrAccum (n base : Nat) (L : List Nat) : List Nat :=
  (List.range L.length).map
    (fun m => base + (((L.take (m + 1)).map (poissonRow n)).flatten).length)

lemma ptrAccum_cons (n base a : Nat) (L : List Nat) :
    ptrAccum n base (a :: L) =
      (base + (poissonRow n a).length) ::
        ptrAccum n (base + (poissonRow n a).length) L := by
  unfold ptrAccum
  rw [List.length_cons, List.range_succ_eq_map]
  simp [List.map_map, Function.comp_def, List.take_succ_cons, add_assoc]

/-- The assembly loop unrolled: the final `ptr` extends `p` with the running
entry counts and the final entry list extends `e` with all rows joined. -/
lemma foldl_asmStep (n : Nat) (L : List Nat) (p : List Nat) (e : List (Nat × Int)) :
    L.foldl (asmStep n) (p, e) =
      (p ++ ptrAccum n e.length L, e ++ (L.map (poissonRow n)).flatten) := by
  induction L generalizing p e with
  | nil => simp [ptrAccum]
  | cons a L ih =>
      rw [List.foldl_cons]
      show List.foldl (asmStep n)
        (p ++ [(e ++ poissonRow n a).length], e ++ poissonRow n a) L = _
      rw [ih, ptrAccum_cons]
      simp [List.append_assoc, List.length_append]

lemma mem_ite_nil {α : Type} (a : α) (p : Prop) [Decidable p] (l : List α) :
    (a ∈ if p then l else []) ↔ p ∧ a ∈ l := by
  split_ifs with h <;> simp [h]

/-- The column indices of a row, in push order. -/
lemma poissonRow_map_fst (n idx : Nat) :
    (poissonRow n idx).map Prod.fst =
      (if 0 < idx / (n * n) then [idx - n * n] else []) ++
      (if 0 < (idx / n) % n then [idx - n] else []) ++
      (if 0 < idx % n then [idx - 1] else []) ++
      [idx] ++
      (if idx % n + 1 < n then [idx + 1] else []) ++
      (if (idx / n) % n + 1 < n then [idx + n] else []) ++
      (if idx / (n * n) + 1 < n then [idx + n * n] else []) := by
  simp only [poissonRow, List.map_append, apply_ite (List.map Prod.fst),
    List.map_cons, List.map_nil]

/-- If `k = idx / (n*n)` is positive then `idx` is at least `n*n`. -/
lemma nn_le_of_k_pos (n idx : Nat) (h : 0 < idx / (n * n)) : n * n ≤ idx := by
  by_contra hc
  rw [Nat.div_eq_of_lt (by omega)] at h
  omega

/-- If `j = (idx / n) % n` is positive then `idx` is at least `n`. -/
lemma n_le_of_j_pos (n idx : Nat) (h : 0 < (idx / n) % n) : n ≤ idx := by
  have h2 : 0 < idx / n := lt_of_lt_of_le h (Nat.mod_le _ _)
  by_contra hc
  rw [Nat.div_eq_of_lt (by omega)] at h2
  omega

lemma one_le_of_i_pos (n idx : Nat) (h : 0 < idx % n) : 1 ≤ idx := by
  have := Nat.mod_le idx n
  omega

lemma pairwise_nil_iff {α : Type} (R : α → α → Prop) : List.Pairwise R [] ↔ True :=
  ⟨fun _ => trivial, fun _ => List.Pairwise.nil⟩

set_option maxHeartbeats 1600000 in
/-- C9 helper: within a row, the column indices are emitted in strictly
increasing order. -/
lemma poissonRow_cols_sorted (n idx : Nat) (hn : 2 ≤ n) :
    ((poissonRow n idx).map Prod.fst).Pairwise (· < ·) := by
  have hm : n < n * n := by nlinarith
  rw [poissonRow_map_fst]
  by_cases h1 : 0 < idx / (n * n) <;>
    by_cases h2 : 0 < (idx / n) % n <;>
      by_cases h3 : 0 < idx % n <;>
        by_cases h4 : idx % n + 1 < n <;>
          by_cases h5 : (idx / n) % n + 1 < n <;>
            by_cases h6 : idx / (n * n) + 1 < n
  all_goals simp only [h1, h2, h3, h4, h5, h6, if_true, if_false]
  all_goals try replace h1 := nn_le_of_k_pos n idx h1
  all_goals try replace h2 := n_le_of_j_pos n idx h2
  all_goals try replace h3 := one_le_of_i_pos n idx h3
  all_goals simp only [List.nil_append, List.cons_append, List.append_nil,
    List.singleton_append, List.append_assoc]
  all_goals simp only [List.pairwise_cons, List.mem_cons, List.mem_singleton,
    List.not_mem_nil, forall_eq_or_imp, forall_eq, false_implies, and_true,
    true_and, imp_true_iff, pairwise_nil_iff]
  all_goals omega

lemma idx_add_nn_lt (n idx : Nat) (hn : 2 ≤ n) (h : idx / (n * n) + 1 < n) :
    idx + n * n < n * n * n := by
  have h0 : 0 < n * n := Nat.mul_pos (by omega) (by omega)
  have hdm := Nat.div_add_mod idx (n * n)
  have hmod : idx % (n * n) < n * n := Nat.mod_lt _ h0
  have hmul : n * n * (idx / (n * n) + 2) ≤ n * n * n :=
    Nat.mul_le_mul_left (n * n) (by omega)
  have hexp : n * n * (idx / (n * n) + 2)
      = n * n * (idx / (n * n)) + n * n + n * n := by ring
  omega

/-- `idx = n*n*k + n*j + i` for the code's coordinate decomposition. -/
lemma idx_decomp (n idx : Nat) :
    n * n * (idx / (n * n)) + n * ((idx / n) % n) + idx % n = idx := by
  have h1 := Nat.div_add_mod idx (n * n)
  have h2 : idx % (n * n) = idx % n + n * (idx / n % n) := Nat.mod_mul
  omega

lemma k_lt_n (n idx : Nat) (hidx : idx < n * n * n) : idx / (n * n) < n :=
  Nat.div_lt_of_lt_mul hidx

lemma idx_add_n_lt (n idx : Nat) (hn : 2 ≤ n) (hidx : idx < n * n * n)
    (h : (idx / n) % n + 1 < n) : idx + n < n * n * n := by
  have h0 : 0 < n := by omega
  have hd := idx_decomp n idx
  have hk := k_lt_n n idx hidx
  have hi : idx % n < n := Nat.mod_lt _ h0
  have e1 : n * n * (idx / (n * n)) + n * n ≤ n * n * n := by
    have h2 := Nat.mul_le_mul_left (n * n) (show idx / (n * n) + 1 ≤ n by omega)
    have e : n * n * (idx / (n * n) + 1) = n * n * (idx / (n * n)) + n * n := by ring
    omega
  have e2 : n * ((idx / n) % n) + 2 * n ≤ n * n := by
    have h2 := Nat.mul_le_mul_left n (show (idx / n) % n + 2 ≤ n by omega)
    have e : n * ((idx / n) % n + 2) = n * ((idx / n) % n) + 2 * n := by ring
    omega
  omega

lemma idx_add_one_lt (n idx : Nat) (hn : 2 ≤ n) (hidx : idx < n * n * n)
    (h : idx % n + 1 < n) : idx + 1 < n * n * n := by
  have h0 : 0 < n := by omega
  have hd := idx_decomp n idx
  have hk := k_lt_n n idx hidx
  have hj : (idx / n) % n < n := Nat.mod_lt _ h0
  have e1 : n * n * (idx / (n * n)) + n * n ≤ n * n * n := by
    have h2 := Nat.mul_le_mul_left (n * n) (show idx / (n * n) + 1 ≤ n by omega)
    have e : n * n * (idx / (n * n) + 1) = n * n * (idx / (n * n)) + n * n := by ring
    omega
  have e2 : n * ((idx / n) % n) + n ≤ n * n := by
    have h2 := Nat.mul_le_mul_left n (show (idx / n) % n + 1 ≤ n by omega)
    have e : n * ((idx / n) % n + 1) = n * ((idx / n) % n) + n := by ring
    omega
  omega

/-- C9 helper: every emitted column index is a valid global row index. -/
lemma poissonRow_cols_lt (n idx : Nat) (hn : 2 ≤ n) (hidx : idx < n * n * n) :
    ∀ c ∈ (poissonRow n idx).map Prod.fst, c < n * n * n := by
  rw [poissonRow_map_fst]
  intro c hc
  simp only [List.mem_append, mem_ite_nil, List.mem_singleton] at hc
  rcases hc with ((((((⟨h1, hc⟩ | ⟨h2, hc⟩) | ⟨h3, hc⟩) | hc) | ⟨h4, hc⟩) |
    ⟨h5, hc⟩) | ⟨h6, hc⟩)
  · subst hc; omega
  · subst hc; omega
  · subst hc; omega
  · subst hc; omega
  · subst hc; exact idx_add_one_lt n idx hn hidx h4
  · subst hc; exact idx_add_n_lt n idx hn hidx h5
  · subst hc; exact idx_add_nn_lt n idx hn h6

/-- The in-bounds axis neighbors of `idx`, as the claim words them: `idx ± 1`,
`idx ± n`, `idx ± n*n`, each present exactly when the corresponding grid
coordinate stays within `[0, n)`. -/
def nbrList (n idx : Nat) : List Nat :=
  (if 0 < idx % n then [idx - 1] else []) ++
  (if idx % n + 1 < n then [idx + 1] else []) ++
  (if 0 < (idx / n) % n then [idx - n] else []) ++
  (if (idx / n) % n + 1 < n then [idx + n] else []) ++
  (if 0 < idx / (n * n) then [idx - n * n] else []) ++
  (if idx / (n * n) + 1 < n then [idx + n * n] else [])

set_option maxHeartbeats 3200000 in
/-- C5 helper: a (column, value) pair is stored in the row exactly when it is
the diagonal entry `(idx, 6*h2i)` or an in-bounds neighbor entry `(c, -h2i)`. -/
lemma poissonRow_mem_iff (n idx : Nat) (c : Nat) (v : Int) :
    (c, v) ∈ poissonRow n idx ↔
      (c = idx ∧ v = 6 * h2i n) ∨ (c ∈ nbrList n idx ∧ v = - h2i n) := by
  simp only [poissonRow, nbrList, List.mem_append, mem_ite_nil,
    List.mem_singleton, Prod.mk.injEq]
  tauto

/-- C5 helper: the row stores exactly one entry more than it has in-bounds
neighbors. -/
lemma poissonRow_length (n idx : Nat) :
    (poissonRow n idx).length = 1 + (nbrList n idx).length := by
  simp only [poissonRow, nbrList]
  split_ifs <;> rfl

lemma poissonRow_cols_nodup (n idx : Nat) (hn : 2 ≤ n) :
    ((poissonRow n idx).map Prod.fst).Nodup :=
  (poissonRow_cols_sorted n idx hn).imp (fun h => Nat.ne_of_lt h)

/-- C5: for `n ≥ 2` and a row index in the assigned range, the assembly emits
for that row exactly the diagonal entry `(idx, 6*h2i)` plus one off-diagonal
entry `(c, -h2i)` for each axis-neighbor `c` of `idx` whose grid coordinate
stays within `[0, n)`, and nothing else: membership is characterized exactly,
the stored column indices are pairwise distinct, and the row length is one
more than the number of in-bounds neighbors. -/
theorem C5_poisson_stencil (n size rank bs idx : Nat) (hn : 2 ≤ n)
    (hlo : row_beg (n * n * n) size bs rank ≤ idx)
    (hhi : idx < row_end (n * n * n) size bs rank) :
    (∀ c v, ((c, v) ∈ poissonRow n idx ↔
      (c = idx ∧ v = 6 * h2i n) ∨ (c ∈ nbrList n idx ∧ v = - h2i n))) ∧
    ((poissonRow n idx).map Prod.fst).Nodup ∧
    (poissonRow n idx).length = 1 + (nbrList n idx).length :=
  ⟨fun c v => poissonRow_mem_iff n idx c v, poissonRow_cols_nodup n idx hn,
   poissonRow_length n idx⟩

/-- Witness for C5 at `n = 4`, one process, block size 1, row 21. -/
theorem C5_poisson_stencil_witness :
    ((poissonRow 4 21).map Prod.fst).Nodup ∧
    (poissonRow 4 21).length = 1 + (nbrList 4 21).length :=
  ⟨(C5_poisson_stencil 4 1 0 1 21 (by decide) (by decide) (by decide)).2.1,
   (C5_poisson_stencil 4 1 0 1 21 (by decide) (by decide) (by decide)).2.2⟩

/-- C6 counterexample: at grid size `n = 4`, one process, block size 1, row 0
of the assembled matrix has 4 stored entries, not 3 as the claim states. -/
theorem C6_row0_counterexample :
    ¬ (((assemble_poisson3d 4 1 0 1).ptr.getD 1 0) -
       ((assemble_poisson3d 4 1 0 1).ptr.getD 0 0) = 3) := by decide

/-- C6 amended: at grid size `n = 4` (`N = 64`), one process, block size 1,
row 0 (`i = j = k = 0`) has exactly 4 non-zeros: the diagonal `6*(3)^2 = 54`
plus three positive-index neighbor entries of value `-9` each (columns 1, 4
and 16); the right-hand side is all ones. -/
theorem C6_row0_amended :
    (assemble_poisson3d 4 1 0 1).chunk = 64 ∧
    (assemble_poisson3d 4 1 0 1).ptr.getD 0 0 = 0 ∧
    (assemble_poisson3d 4 1 0 1).ptr.getD 1 0 = 4 ∧
    (assemble_poisson3d 4 1 0 1).col.take 4 = [0, 1, 4, 16] ∧
    (assemble_poisson3d 4 1 0 1).val.take 4 = [54, -9, -9, -9] ∧
    (assemble_poisson3d 4 1 0 1).rhs = List.replicate 64 1 := by decide

/-- The assembled output in closed form: `ptr` starts at 0 and records the
running entry counts, `col`/`val` are the concatenated per-row entries, and
the rhs is the all-ones vector of the local length. -/
lemma assemble_poisson3d_eq (n size rank bs : Nat) :
    assemble_poisson3d n size rank bs =
      { chunk := row_end (n * n * n) size bs rank - row_beg (n * n * n) size bs rank
        ptr := 0 :: ptrAccum n 0 (rowIdxList (n * n * n) size bs rank)
        col := (((rowIdxList (n * n * n) size bs rank).map
                  (poissonRow n)).flatten).map Prod.fst
        val := (((rowIdxList (n * n * n) size bs rank).map
                  (poissonRow n)).flatten).map Prod.snd
        rhs := List.replicate
          (row_end (n * n * n) size bs rank - row_beg (n * n * n) size bs rank) 1 } := by
  simp only [assemble_poisson3d]
  rw [foldl_asmStep]
  simp

lemma rowIdxList_length (N P align rank : Nat) :
    (rowIdxList N P align rank).length =
      row_end N P align rank - row_beg N P align rank := by
  simp [rowIdxList]

lemma ptrAccum_length (n base : Nat) (L : List Nat) :
    (ptrAccum n base L).length = L.length := by
  simp [ptrAccum]

lemma mem_rowIdxList_iff (N P align rank idx : Nat) :
    idx ∈ rowIdxList N P align rank ↔
      row_beg N P align rank ≤ idx ∧ idx < row_end N P align rank := by
  simp only [rowIdxList, List.mem_map, List.mem_range]
  constructor
  · rintro ⟨t, ht, rfl⟩
    omega
  · intro h
    exact ⟨idx - row_beg N P align rank, by omega, by omega⟩

lemma sum_take_mono (l : List Nat) (m m' : Nat) (h : m ≤ m') :
    (l.take m).sum ≤ (l.take m').sum := by
  have e1 : l.take m = (l.take m').take m := by
    rw [List.take_take, min_eq_left h]
  have e2 : (l.take m).sum = ((l.take m').take m).sum := by rw [e1]
  have e3 : (l.take m').sum = ((l.take m').take m).sum + ((l.take m').drop m).sum := by
    conv_lhs => rw [← List.take_append_drop m (l.take m')]
    rw [List.sum_append]
  omega

lemma flatten_take_length_mono {α : Type} (xs : List (List α)) (a b : Nat)
    (h : a ≤ b) :
    ((xs.take a).flatten).length ≤ ((xs.take b).flatten).length := by
  rw [List.length_flatten, List.length_flatten, List.map_take, List.map_take]
  exact sum_take_mono (xs.map List.length) a b h

/-- C9 helper: the running `ptr` values are non-decreasing. -/
lemma ptrAccum_pairwise_le (n base : Nat) (L : List Nat) :
    (ptrAccum n base L).Pairwise (· ≤ ·) := by
  unfold ptrAccum
  rw [List.pairwise_map]
  refine (List.pairwise_lt_range L.length).imp ?_
  intro a b hab
  have h1 : ((L.take (a + 1)).map (poissonRow n)).flatten.length ≤
      ((L.take (b + 1)).map (poissonRow n)).flatten.length := by
    rw [List.map_take, List.map_take]
    exact flatten_take_length_mono (L.map (poissonRow n)) (a + 1) (b + 1) (by omega)
  omega

/-- C9: for `n ≥ 2` the assembled output is well-formed: `ptr` has length
`chunk + 1`, starts at 0 and is non-decreasing; the returned chunk equals
`ptr.size() - 1` and `rhs.size()`; within every assembled row the column
indices are strictly increasing (in the emission order `idx - n*n`, `idx - n`,
`idx - 1`, `idx`, `idx + 1`, `idx + n`, `idx + n*n`, each present only when in
bounds); and every emitted column index lies in `[0, n^3)`. -/
theorem C9_assembly_wellformed (n size rank bs : Nat) (hn : 2 ≤ n) :
    (assemble_poisson3d n size rank bs).ptr.length =
      (assemble_poisson3d n size rank bs).chunk + 1 ∧
    (assemble_poisson3d n size rank bs).ptr.head? = some 0 ∧
    (assemble_poisson3d n size rank bs).ptr.Pairwise (· ≤ ·) ∧
    (assemble_poisson3d n size rank bs).chunk =
      (assemble_poisson3d n size rank bs).ptr.length - 1 ∧
    (assemble_poisson3d n size rank bs).chunk =
      (assemble_poisson3d n size rank bs).rhs.length ∧
    (assemble_poisson3d n size rank bs).col =
      (((rowIdxList (n * n * n) size bs rank).map (poissonRow n)).flatten).map
        Prod.fst ∧
    (∀ idx ∈ rowIdxList (n * n * n) size bs rank,
      ((poissonRow n idx).map Prod.fst).Pairwise (· < ·)) ∧
    (∀ c ∈ (assemble_poisson3d n size rank bs).col, c < n * n * n) := by
  rw [assemble_poisson3d_eq]
  refine ⟨?_, rfl, ?_, ?_, ?_, rfl, ?_, ?_⟩
  · simp [ptrAccum_length, rowIdxList_length]
  · refine List.Pairwise.cons ?_ (ptrAccum_pairwise_le n 0 _)
    intro a _
    exact Nat.zero_le a
  · simp [ptrAccum_length, rowIdxList_length]
  · simp
  · intro idx _
    exact poissonRow_cols_sorted n idx hn
  · intro c hc
    obtain ⟨cv, hcv, rfl⟩ := List.mem_map.mp hc
    obtain ⟨row, hrow, hcvrow⟩ := List.mem_flatten.mp hcv
    obtain ⟨idx, hidx, rfl⟩ := List.mem_map.mp hrow
    have hb := (mem_rowIdxList_iff (n * n * n) size bs rank idx).mp hidx
    have hlt : idx < n * n * n :=
      lt_of_lt_of_le hb.2 (min_le_left _ _)
    exact poissonRow_cols_lt n idx hn hlt cv.1 (List.mem_map_of_mem Prod.fst hcvrow)

/-- Witness for C9 at `n = 4`, one process, block size 1. -/
theorem C9_assembly_wellformed_witness :
    (assemble_poisson3d 4 1 0 1).ptr.length =
      (assemble_poisson3d 4 1 0 1).chunk + 1 ∧
    (assemble_poisson3d 4 1 0 1).ptr.head? = some 0 :=
  ⟨(C9_assembly_wellformed 4 1 0 1 (by decide)).1,
   (C9_assembly_wellformed 4 1 0 1 (by decide)).2.1⟩

/-! ## Right-hand-side defaulting (`read_matrix_market` lines 145-151,
`read_binary` lines 179-185) -/

lemma row_beg_le_row_end (N P align rank : Nat) :
    row_beg N P align rank ≤ row_end N P align rank := by
  simp only [row_end, row_beg]
  omega

lemma row_end_le (N P align rank : Nat) : row_end N P align rank ≤ N :=
  min_le_left _ _

/-- Modelled from the spec: the row-range reader capability of section 6
(`amgcl::io::mm_reader` / `amgcl::io::read_dense`, whose sources are outside
this repository) returns, for a right-hand-side file and a row range, the
matching segment `[row_beg, row_end)` of the stored vector. -/
def readVectorSegment (data : List Rat) (rb re : Nat) : List Rat :=
  (data.drop rb).take (re - rb)

/-- The rhs branch shared by `read_matrix_market` and `read_binary`: with an
empty rhs path the local segment is resized to the chunk and filled with ones;
otherwise the reader supplies the matching segment. -/
def readRhs (N P rank align : Nat) (rhsFile : Option (List Rat)) : List Rat :=
  match rhsFile with
  | none => List.replicate (row_end N P align rank - row_beg N P align rank) 1
  | some data =>
      readVectorSegment data (row_beg N P align rank) (row_end N P align rank)

/-- C8: with no rhs file the local right-hand side is the all-ones vector of
length `row_end - row_beg` (this also holds for the synthetic stencil, whose
rhs is all ones of the local chunk length); with a companion rhs file holding
the global vector, the matching segment `[row_beg, row_end)` is read
instead. -/
theorem C8_rhs_default (N P rank align : Nat) (data : List Rat)
    (hlen : row_end N P align rank ≤ data.length) :
    (readRhs N P rank align none).length =
      row_end N P align rank - row_beg N P align rank ∧
    (∀ x ∈ readRhs N P rank align none, x = 1) ∧
    readRhs N P rank align (some data) =
      readVectorSegment data (row_beg N P align rank) (row_end N P align rank) ∧
    (readRhs N P rank align (some data)).length =
      row_end N P align rank - row_beg N P align rank ∧
    (∀ n size rnk bs : Nat, (assemble_poisson3d n size rnk bs).rhs =
      List.replicate (assemble_poisson3d n size rnk bs).chunk 1) := by
  refine ⟨by simp [readRhs], ?_, rfl, ?_, ?_⟩
  · intro x hx
    exact List.eq_of_mem_replicate hx
  · have hbe := row_beg_le_row_end N P align rank
    simp only [readRhs, readVectorSegment, List.length_take, List.length_drop]
    omega
  · intro n size rnk bs
    rw [assemble_poisson3d_eq]

/-- Witness for C8 at `N = 100`, `P = 3`, `align = 4`, rank 2, with a stored
global vector of length 100. -/
theorem C8_rhs_default_witness :
    (readRhs 100 3 2 4 none).length = row_end 100 3 4 2 - row_beg 100 3 4 2 ∧
    (readRhs 100 3 2 4 (some (List.replicate 100 2))).length =
      row_end 100 3 4 2 - row_beg 100 3 4 2 :=
  ⟨(C8_rhs_default 100 3 2 4 (List.replicate 100 2) (by decide)).1,
   (C8_rhs_default 100 3 2 4 (List.replicate 100 2) (by decide)).2.2.2.1⟩

/-! ## Diagonal scaling (serena_mpi_mixed.cpp `main`, lines 82-99)

The inner loop scans row `i` for the first stored entry with column
`I = row_beg + i` (`break` on the first hit) and sets
`dia[i] = 1 / sqrt(val[j])`; otherwise `dia[i]` keeps its initial value 1.0.
The square root lives in the C library, so the scaling function `1/sqrt(·)`
is a parameter `invSqrt` of the embedding. -/

/-- The stored entries of local row `i` of a CRS chunk: positions
`[ptr[i], ptr[i+1])` of the column/value arrays. -/
def crsRow (ptr col : List Nat) (val : List Rat) (i : Nat) : List (Nat × Rat) :=
  ((col.zip val).drop (ptr.getD i 0)).take (ptr.getD (i + 1) 0 - ptr.getD i 0)

/-- The inner loop: first entry of row `i` whose column equals `row_beg + i`,
mapped through `invSqrt`; 1.0 when the scan finds nothing. -/
def diaEntry (invSqrt : Rat → Rat) (rb : Nat) (ptr col : List Nat)
    (val : List Rat) (i : Nat) : Rat :=
  match (crsRow ptr col val i).find? (fun e => e.1 == rb + i) with
  | some e => invSqrt e.2
  | none => 1

/-- `std::vector<double> dia(chunk, 1.0)` after the scan loop. -/
def serena_dia (invSqrt : Rat → Rat) (rb chunk : Nat) (ptr col : List Nat)
    (val : List Rat) : List Rat :=
  (List.range chunk).map (diaEntry invSqrt rb ptr col val)

/-- `d_ptr[i] = i` for `i < chunk`, then `d_ptr.back() = chunk`. -/
def serena_d_ptr (chunk : Nat) : List Nat :=
  List.range chunk ++ [chunk]

/-- `d_col[i] = row_beg + i`. -/
def serena_d_col (rb chunk : Nat) : List Nat :=
  (List.range chunk).map (fun i => rb + i)

lemma find?_eq_head_filter {α : Type} (p : α → Bool) (l : List α) :
    l.find? p = (l.filter p).head? := by
  induction l with
  | nil => rfl
  | cons a l ih =>
      by_cases h : p a
      · rw [List.find?_cons_of_pos _ h, List.filter_cons_of_pos h]
        rfl
      · rw [List.find?_cons_of_neg _ h, List.filter_cons_of_neg h, ih]

lemma getD_range_map {β : Type} (f : Nat → β) (d : β) (nn i : Nat)
    (hi : i < nn) : (((List.range nn).map f).getD i d) = f i := by
  rw [List.getD_eq_getElem?_getD, List.getElem?_map, List.getElem?_range hi]
  rfl

lemma serena_d_ptr_getD (chunk i : Nat) (hi : i < chunk) :
    (serena_d_ptr chunk).getD i 0 = i := by
  unfold serena_d_ptr
  rw [List.getD_eq_getElem?_getD, List.getElem?_append_left (by simpa using hi),
    List.getElem?_range hi]
  rfl

lemma serena_d_ptr_last (chunk : Nat) :
    (serena_d_ptr chunk).getD chunk 0 = chunk := by
  unfold serena_d_ptr
  rw [List.getD_eq_getElem?_getD, List.getElem?_append_right (by simp)]
  simp

/-- C10: in the diagonal-scaling step, for every local row `i < chunk` with
global row `I = row_beg + i`: `dia[i]` stays 1.0 when the row stores no entry
with column `I`; when the row stores exactly one entry `(I, v)`, `dia[i]`
becomes `invSqrt v` (the code's `1 / sqrt(v)`); `dia` has one value per local
row; and the diagonal matrix arrays give exactly one non-zero per local row at
global column `I`: `d_ptr[i] = i`, `d_ptr[chunk] = chunk`, `d_ptr` has length
`chunk + 1`, each row of `D` holds exactly one entry, and `d_col[i] = I`. -/
theorem C10_diag_scaling (invSqrt : Rat → Rat) (rb chunk : Nat)
    (ptr col : List Nat) (val : List Rat) (i : Nat) (hi : i < chunk) :
    ((∀ v : Rat, (rb + i, v) ∉ crsRow ptr col val i) →
      (serena_dia invSqrt rb chunk ptr col val).getD i 0 = 1) ∧
    (∀ v : Rat,
      (crsRow ptr col val i).filter (fun e => e.1 == rb + i) = [(rb + i, v)] →
      (serena_dia invSqrt rb chunk ptr col val).getD i 0 = invSqrt v) ∧
    (serena_dia invSqrt rb chunk ptr col val).length = chunk ∧
    (serena_d_ptr chunk).getD i 0 = i ∧
    (serena_d_ptr chunk).getD chunk 0 = chunk ∧
    (serena_d_ptr chunk).length = chunk + 1 ∧
    (serena_d_ptr chunk).getD (i + 1) 0 - (serena_d_ptr chunk).getD i 0 = 1 ∧
    (serena_d_col rb chunk).getD i 0 = rb + i := by
  have hg : (serena_dia invSqrt rb chunk ptr col val).getD i 0 =
      diaEntry invSqrt rb ptr col val i :=
    getD_range_map (diaEntry invSqrt rb ptr col val) 0 chunk i hi
  refine ⟨?_, ?_, by simp [serena_dia], serena_d_ptr_getD chunk i hi,
    serena_d_ptr_last chunk, by simp [serena_d_ptr], ?_, ?_⟩
  · intro hno
    rw [hg]
    unfold diaEntry
    have hfind : (crsRow ptr col val i).find? (fun e => e.1 == rb + i) = none := by
      rw [List.find?_eq_none]
      intro e he
      simp only [beq_iff_eq]
      intro hce
      apply hno e.2
      have he2 : (rb + i, e.2) = e := by
        cases e
        simp_all
      rw [he2]
      exact he
    rw [hfind]
  · intro v hfilter
    rw [hg]
    unfold diaEntry
    rw [find?_eq_head_filter, hfilter]
    rfl
  · rcases Nat.lt_or_ge (i + 1) chunk with h | h
    · rw [serena_d_ptr_getD chunk (i + 1) h, serena_d_ptr_getD chunk i hi]
      omega
    · have he : i + 1 = chunk := by omega
      rw [he, serena_d_ptr_last chunk, serena_d_ptr_getD chunk i hi]
      omega
  · unfold serena_d_col
    exact getD_range_map (fun t => rb + t) 0 chunk i hi

/-- Witness for C10: a 2-row chunk at `row_beg = 0` where row 0 stores the
diagonal entry `(0, 4)` and row 1 stores no diagonal entry. -/
theorem C10_diag_scaling_witness :
    (serena_dia (fun v => v + 3) 0 2 [0, 2, 3] [0, 1, 0] [4, 5, 6]).getD 0 0 =
      (fun v : Rat => v + 3) 4 ∧
    (serena_d_ptr 2).getD 0 0 = 0 :=
  ⟨(C10_diag_scaling (fun v => v + 3) 0 2 [0, 2, 3] [0, 1, 0] [4, 5, 6] 0
      (by decide)).2.1 4 (by decide),
   (C10_diag_scaling (fun v => v + 3) 0 2 [0, 2, 3] [0, 1, 0] [4, 5, 6] 0
      (by decide)).2.2.2.1⟩
